import Mathlib

/-!
# AssetViz: normalisation and domain-tree construction

A shallow embedding of `main.go` (`processInput`, `updateDomainTree`) together
with the properties of the normalisation and tree-construction pipeline.

Modelling conventions.

* A Go `string` holding UTF-8 text is a `List Char` (`Str`).
* `DomainTree` (`map[string]DomainTree`) is the list of its entries; a lookup
  returns the first binding of a key, and a new key is added behind the
  existing ones.  The order of the entries is an artefact of the embedding, so
  "the same map" is the relation `Same` (same keys, same subtrees under every
  key), not equality of entry lists.
* The in-place mutation through the `currentTree` pointer is explicit state
  passing: the rest of the loop is a function applied to the child the loop
  descends into.
* `isValidDomain` delegates to the external `go-tld` parser; it is the
  parameter `isValidDomain : Str → Bool` of `processInput`.
* The input of `processInput` is the list of the lines of the stream (the
  text between the newlines) together with a flag telling whether the stream
  ends with a read error instead of end-of-file.  `bufio.Scanner` is modelled
  with its default buffer: it delivers a line after dropping one trailing
  carriage return, and stops with `ErrTooLong` at a line of
  `bufio.MaxScanTokenSize` bytes or more.
-/

namespace AssetViz

/-- A Go string holding UTF-8 text, as its sequence of code points. -/
abbrev Str := List Char

/-! ## String primitives of the Go standard library used by `main.go` -/

/-- `strings.Split(s, sep)` for a one-character separator: the pieces of `s`
between the occurrences of `sep`; the empty string gives one empty piece. -/
def split (sep : Char) : Str → List Str
  | [] => [[]]
  | c :: cs =>
    if c = sep then [] :: split sep cs
    else
      match split sep cs with
      | [] => [[c]]
      | p :: ps => (c :: p) :: ps

/-- `strings.Join(parts, sep)`. -/
def join (sep : Str) : List Str → Str
  | [] => []
  | [p] => p
  | p :: q :: ps => p ++ sep ++ join sep (q :: ps)

/-! ## The domain tree -/

/-- `type DomainTree map[string]DomainTree`, as the list of its entries:
`empty` is `make(DomainTree)`, and `entry k c r` is the map `r` together with
the key `k` bound to the subtree `c`. -/
inductive DomainTree where
  | empty : DomainTree
  | entry (key : Str) (child : DomainTree) (rest : DomainTree) : DomainTree
  deriving DecidableEq, Repr

namespace DomainTree

/-- `currentTree[key]` with its `exists` flag. -/
def lookup (key : Str) : DomainTree → Option DomainTree
  | empty => none
  | entry k c r => if k = key then some c else lookup key r

/-- The keys of one level, in entry order. -/
def keys : DomainTree → List Str
  | empty => []
  | entry k _ r => k :: keys r

/-- Number of entries in the whole tree. -/
def size : DomainTree → Nat
  | empty => 0
  | entry _ c r => size c + size r + 1

end DomainTree

open DomainTree

/-- One iteration body of the loop of `updateDomainTree`:
`if _, exists := currentTree[key]; !exists { currentTree[key] = make(DomainTree) }`
followed by `currentTree = currentTree[key]`, after which the remaining
iterations (`rest`) mutate the tree that `currentTree` now points to. -/
def descend (key : Str) (rest : DomainTree → DomainTree) : DomainTree → DomainTree
  | .empty => .entry key (rest .empty) .empty
  | .entry k c r =>
    if k = key then .entry k (rest c) r
    else .entry k c (descend key rest r)

/-- The loop `for i := len(parts) - 1; i >= 0; i--` of `updateDomainTree`;
the counter `i + 1` stands for "the next index to visit is `i`". -/
def updateLoop (parts : List Str) (tldIndex : Nat) : Nat → DomainTree → DomainTree
  | 0, currentTree => currentTree
  | i + 1, currentTree =>
    let subdomain := parts.getD i []
    let fullDomain := join ['.'] (parts.drop i)
    if i = tldIndex then
      descend subdomain (updateLoop parts tldIndex i) currentTree
    else
      descend fullDomain (updateLoop parts tldIndex i) currentTree

/-- `updateDomainTree(domainTree, domain)`; the result is the tree the
argument map holds after the call. -/
def updateDomainTree (domainTree : DomainTree) (domain : Str) : DomainTree :=
  let parts := split '.' domain
  let tldIndex := parts.length - 1
  updateLoop parts tldIndex parts.length domainTree

/-! ## Specification vocabulary for trees -/

/-- Ensure each key of a path in turn, descending after each one. -/
def insertPath : List Str → DomainTree → DomainTree
  | [] => fun t => t
  | k :: ks => descend k (insertPath ks)

/-- The single chain `k₀ ↦ (k₁ ↦ ... (kₘ ↦ leaf))`: every level has exactly
one key, and the innermost key maps to `leaf`. -/
def chainTo (leaf : DomainTree) : List Str → DomainTree
  | [] => leaf
  | k :: ks => .entry k (chainTo leaf ks) .empty

/-- The keys visited for the labels `p₀ … pₙ`, outermost first:
`join(p[i..n], ".")` for `i = n, n-1, …, 0`. -/
def suffixKeys (parts : List Str) : List Str :=
  (List.range parts.length).reverse.map fun i => join ['.'] (parts.drop i)

/-- Two trees are the same map: the same keys are bound at the root, and the
subtrees bound to each key are again the same map. -/
inductive Same : DomainTree → DomainTree → Prop
  | intro {t u : DomainTree}
      (hkeys : ∀ k, (lookup k t).isSome = (lookup k u).isSome)
      (hsub : ∀ k a b, lookup k t = some a → lookup k u = some b → Same a b) :
      Same t u

/-- Whether the keys of `path` can be followed, one level per key, from the
root of the tree. -/
def hasPath : List Str → DomainTree → Bool
  | [], _ => true
  | k :: ks, t =>
    match lookup k t with
    | none => false
    | some c => hasPath ks c

/-- A key is admissible under a parent: at the root it contains no dot, and
under a node keyed `p` it is `l ++ "." ++ p` for a dot-free label `l`. -/
def KeyOk : Option Str → Str → Prop
  | none, k => '.' ∉ k
  | some p, k => ∃ l : Str, '.' ∉ l ∧ k = l ++ '.' :: p

/-- Every key of the tree is admissible under the key of the node holding it
(`parent` is the key of the node whose map this is, `none` for the root). -/
def KeyShape (parent : Option Str) : DomainTree → Prop
  | .empty => True
  | .entry k c r => KeyOk parent k ∧ KeyShape (some k) c ∧ KeyShape parent r

/-- A path of keys each admissible under the one before it. -/
def PathOk : Option Str → List Str → Prop
  | _, [] => True
  | parent, k :: ks => KeyOk parent k ∧ PathOk (some k) ks

/-! ## The normaliser and the input loop of `processInput` -/

/-- `unicode.IsSpace`, which `strings.TrimSpace` uses. -/
def isSpace (c : Char) : Bool :=
  let n := c.toNat
  n = 0x09 || n = 0x0A || n = 0x0B || n = 0x0C || n = 0x0D || n = 0x20
    || n = 0x85 || n = 0xA0 || n = 0x1680 || (0x2000 ≤ n && n ≤ 0x200A)
    || n = 0x2028 || n = 0x2029 || n = 0x202F || n = 0x205F || n = 0x3000

/-- `strings.TrimSpace(s)`. -/
def trimSpace (s : Str) : Str :=
  ((s.dropWhile isSpace).reverse.dropWhile isSpace).reverse

/-- `strings.TrimPrefix(s, pre)`. -/
def trimPrefix (s pre : Str) : Str :=
  if pre.isPrefixOf s then s.drop pre.length else s

/-- `strings.TrimSuffix(s, suf)`. -/
def trimSuffix (s suf : Str) : Str :=
  if suf.isSuffixOf s then s.take (s.length - suf.length) else s

/-- The scan of `strings.ReplaceAll` for a non-empty `old`: left to right,
non-overlapping; `skip` counts the characters of a match still to be passed. -/
def replaceFrom (old new : Str) : Nat → Str → Str
  | _, [] => []
  | skip + 1, _ :: cs => replaceFrom old new skip cs
  | 0, c :: cs =>
    if old.isPrefixOf (c :: cs) then new ++ replaceFrom old new (old.length - 1) cs
    else c :: replaceFrom old new 0 cs

/-- `strings.ReplaceAll(s, old, new)` for a non-empty `old`. -/
def replaceAll (s old new : Str) : Str :=
  replaceFrom old new 0 s

/-- The normaliser inside the loop of `processInput`: `none` when the line is
skipped, otherwise the string handed to `isValidDomain`. -/
def normalize (line : Str) : Option Str :=
  let domain := trimSpace line
  if domain ≠ [] ∧ domain ≠ ['.'] then
    let domain := trimPrefix domain "http://".toList
    let domain := trimPrefix domain "https://".toList
    let domain := replaceAll domain "..".toList ".".toList
    let domain := trimSuffix domain ".".toList
    let domain := (split ':' domain).headD []
    some domain
  else
    none

/-- How a run of `processInput` ends. -/
inductive Outcome where
  /-- The loop ended without a scanner error: the tree goes to
  `json.MarshalIndent` and `generateHTMLReport`. -/
  | report (domainTree : DomainTree) : Outcome
  /-- The function returned after printing "File contains invalid input". -/
  | invalidInput : Outcome
  /-- The function returned after printing "Error reading input:". -/
  | readError : Outcome
  deriving DecidableEq, Repr

/-- `bufio.MaxScanTokenSize`, the size limit of the default scanner buffer. -/
def maxScanTokenSize : Nat := 64 * 1024

/-- `len(s)`: the number of bytes of the UTF-8 encoding. -/
def byteLen (s : Str) : Nat :=
  (s.map Char.utf8Size).sum

/-- `dropCR` of `bufio.ScanLines`: one trailing carriage return is removed. -/
def dropCR (data : Str) : Str :=
  if data.getLast? = some '\r' then data.dropLast else data

/-- The `for scanner.Scan()` loop of `processInput` followed by the
`scanner.Err()` check, over the lines of the stream.  A line of
`maxScanTokenSize` bytes or more makes `Scan` return false with `ErrTooLong`,
and a stream that ends with a read error (`streamError`) leaves that error in
`scanner.Err()`; in both cases the function returns without a report.
Otherwise `scanner.Text()` is the line without its trailing carriage
return. -/
def processLoop (isValidDomain : Str → Bool) (streamError : Bool) :
    List Str → DomainTree → Bool → Outcome
  | [], domainTree, _ =>
    if streamError then .readError else .report domainTree
  | line :: lines, domainTree, encounteredError =>
    if maxScanTokenSize ≤ byteLen line then
      .readError
    else
      match normalize (dropCR line) with
      | none => processLoop isValidDomain streamError lines domainTree encounteredError
      | some domain =>
        if isValidDomain domain then
          processLoop isValidDomain streamError lines (updateDomainTree domainTree domain)
            encounteredError
        else if !encounteredError then
          .invalidInput
        else
          processLoop isValidDomain streamError lines domainTree encounteredError

/-- `processInput` on the lines of its input; the first argument is the
function `isValidDomain`, the last tells whether the stream ends with a read
error. -/
def processInput (isValidDomain : Str → Bool) (lines : List Str) (streamError : Bool) :
    Outcome :=
  processLoop isValidDomain streamError lines .empty false

/-- The scanner reads the whole input without error: every line is shorter
than `maxScanTokenSize` and the stream ends at end-of-file. -/
def cleanScan (lines : List Str) (streamError : Bool) : Bool :=
  lines.all (fun l => decide (byteLen l < maxScanTokenSize)) && !streamError

/-- A line the loop skips: its trimmed text is empty or exactly ".". -/
def skippable (line : Str) : Bool :=
  decide (trimSpace line = [] ∨ trimSpace line = ['.'])

/-! ## Basic facts about the string primitives -/

theorem split_ne_nil (sep : Char) (s : Str) : split sep s ≠ [] := by
  induction s with
  | nil => simp [split]
  | cons c cs ih =>
    unfold split
    split_ifs
    · simp
    · cases h : split sep cs <;> simp

theorem join_cons_of_ne_nil (sep p : Str) {ps : List Str} (h : ps ≠ []) :
    join sep (p :: ps) = p ++ sep ++ join sep ps := by
  cases ps with
  | nil => exact absurd rfl h
  | cons q qs => rfl

/-- Joining the pieces of a split gives the string back. -/
theorem join_split (sep : Char) (s : Str) : join [sep] (split sep s) = s := by
  induction s with
  | nil => rfl
  | cons c cs ih =>
    unfold split
    split_ifs with h
    · rw [join_cons_of_ne_nil _ _ (split_ne_nil sep cs), ih, h]; rfl
    · cases hs : split sep cs with
      | nil => exact absurd hs (split_ne_nil sep cs)
      | cons p ps =>
        rw [hs] at ih
        cases ps with
        | nil => simp only [join] at ih ⊢; rw [ih]
        | cons q qs =>
          simp only [join] at ih ⊢
          rw [← ih]; simp

/-- The pieces of a split do not contain the separator. -/
theorem not_mem_of_mem_split (sep : Char) (s : Str) :
    ∀ p ∈ split sep s, sep ∉ p := by
  induction s with
  | nil => simp [split]
  | cons c cs ih =>
    unfold split
    split_ifs with h
    · intro p hp
      rcases List.mem_cons.1 hp with rfl | hp
      · simp
      · exact ih p hp
    · cases hs : split sep cs with
      | nil => exact absurd hs (split_ne_nil sep cs)
      | cons q qs =>
        rw [hs] at ih
        intro p hp
        rcases List.mem_cons.1 hp with rfl | hp
        · intro hmem
          rcases List.mem_cons.1 hmem with rfl | hmem
          · exact h rfl
          · exact ih q (List.mem_cons_self _ _) hmem
        · exact ih p (List.mem_cons_of_mem _ hp)

/-- Splitting `x ++ sep :: s` when `x` has no separator. -/
theorem split_append_sep (sep : Char) (x s : Str) (hx : sep ∉ x) :
    split sep (x ++ sep :: s) = x :: split sep s := by
  induction x with
  | nil => simp [split]
  | cons c cs ih =>
    have hc : c ≠ sep := fun h => hx (h ▸ List.mem_cons_self _ _)
    have hcs : sep ∉ cs := fun h => hx (List.mem_cons_of_mem _ h)
    have h := ih hcs
    show split sep (c :: (cs ++ sep :: s)) = (c :: cs) :: split sep s
    rw [split, if_neg hc, h]

/-! ## The loop of `updateDomainTree` visits the suffix keys -/

theorem getD_eq_join_drop_last (parts : List Str) (h : parts ≠ []) :
    parts.getD (parts.length - 1) [] = join ['.'] (parts.drop (parts.length - 1)) := by
  induction parts with
  | nil => exact absurd rfl h
  | cons p ps ih =>
    cases ps with
    | nil => rfl
    | cons q qs =>
      have := ih (by simp)
      simpa using this

theorem updateLoop_eq_insertPath (parts : List Str) (j : Nat) :
    updateLoop parts (parts.length - 1) j
      = insertPath ((List.range j).reverse.map fun i => join ['.'] (parts.drop i)) := by
  induction j with
  | zero => rfl
  | succ j ih =>
    funext t
    simp only [updateLoop, List.range_succ, List.reverse_append, List.reverse_cons,
      List.reverse_nil, List.nil_append, List.singleton_append, List.map_cons, insertPath, ih]
    split_ifs with h
    · by_cases hne : parts = []
      · subst hne; subst h; rfl
      · rw [h, getD_eq_join_drop_last parts hne]
    · rfl

theorem updateDomainTree_eq_insertPath (t : DomainTree) (d : Str) :
    updateDomainTree t d = insertPath (suffixKeys (split '.' d)) t := by
  unfold updateDomainTree suffixKeys
  exact congrFun (updateLoop_eq_insertPath (split '.' d) (split '.' d).length) t

theorem suffixKeys_cons (p : Str) (ps : List Str) :
    suffixKeys (p :: ps) = suffixKeys ps ++ [join ['.'] (p :: ps)] := by
  unfold suffixKeys
  simp only [List.length_cons, List.range_succ_eq_map, List.reverse_cons, List.map_append,
    List.map_cons, List.map_nil, List.drop_zero, ← List.map_reverse, List.map_map]
  congr 1

theorem suffixKeys_append_sep (x s : Str) (hx : '.' ∉ x) :
    suffixKeys (split '.' (x ++ '.' :: s)) = suffixKeys (split '.' s) ++ [x ++ '.' :: s] := by
  rw [split_append_sep '.' x s hx, suffixKeys_cons, ← split_append_sep '.' x s hx, join_split]

/-! ## Facts about `descend`, `insertPath` and `lookup` -/

theorem descend_descend (k : Str) (f g : DomainTree → DomainTree) (t : DomainTree) :
    descend k f (descend k g t) = descend k (fun c => f (g c)) t := by
  induction t with
  | empty => simp [descend]
  | entry k0 c r _ ihr =>
    by_cases h : k0 = k
    · simp [descend, h]
    · simp [descend, h, ihr]

theorem insertPath_idem (ks : List Str) (t : DomainTree) :
    insertPath ks (insertPath ks t) = insertPath ks t := by
  induction ks generalizing t with
  | nil => rfl
  | cons k ks ih =>
    simp only [insertPath, descend_descend]
    congr 1
    funext c
    exact ih c

theorem insertPath_append_empty (ks rest : List Str) :
    insertPath (ks ++ rest) .empty = chainTo (insertPath rest .empty) ks := by
  induction ks with
  | nil => rfl
  | cons k ks ih => simp [insertPath, descend, chainTo, ih]

theorem insertPath_append_chainTo (ks rest : List Str) (leaf : DomainTree) :
    insertPath (ks ++ rest) (chainTo leaf ks) = chainTo (insertPath rest leaf) ks := by
  induction ks with
  | nil => rfl
  | cons k ks ih => simp [insertPath, descend, chainTo, ih]

theorem lookup_descend (k0 k : Str) (f : DomainTree → DomainTree) (t : DomainTree) :
    lookup k (descend k0 f t)
      = if k0 = k then some (f ((lookup k0 t).getD .empty)) else lookup k t := by
  induction t with
  | empty =>
    by_cases h : k0 = k <;> simp [descend, lookup, h]
  | entry k1 c r _ ihr =>
    by_cases h1 : k1 = k0
    · subst h1
      by_cases h : k1 = k <;> simp [descend, lookup, h]
    · by_cases h : k0 = k
      · subst h
        simp [descend, lookup, h1, ihr]
      · by_cases h2 : k1 = k
        · subst h2
          simp [descend, lookup, h1, h]
        · simp [descend, lookup, h1, h2, h, ihr]

theorem size_lt_of_lookup {k : Str} {t a : DomainTree} (h : lookup k t = some a) :
    a.size < t.size := by
  induction t with
  | empty => simp [lookup] at h
  | entry k1 c r _ ihr =>
    by_cases h1 : k1 = k
    · simp [lookup, h1] at h
      subst h
      simp [size]; omega
    · simp [lookup, h1] at h
      have := ihr h
      simp [size]; omega

/-! ## `Same` is an equivalence relation respected by insertion -/

theorem Same.refl (t : DomainTree) : Same t t := by
  suffices H : ∀ n (t : DomainTree), t.size ≤ n → Same t t from H _ t le_rfl
  intro n
  induction n with
  | zero =>
    intro t ht
    refine Same.intro (fun _ => rfl) ?_
    intro k a b ha _
    have := size_lt_of_lookup ha
    omega
  | succ n ih =>
    intro t ht
    refine Same.intro (fun _ => rfl) ?_
    intro k a b ha hb
    rw [ha] at hb
    cases hb
    exact ih a (by have := size_lt_of_lookup ha; omega)

theorem Same.of_eq {t u : DomainTree} (h : t = u) : Same t u := h ▸ Same.refl t

theorem Same.of_lookup_eq {t u : DomainTree} (h : ∀ k, lookup k t = lookup k u) :
    Same t u := by
  refine Same.intro (fun k => by rw [h k]) ?_
  intro k a b ha hb
  rw [h k, hb] at ha
  cases ha
  exact Same.refl _

theorem Same.symm {t u : DomainTree} (h : Same t u) : Same u t := by
  induction h with
  | intro hkeys _ ih =>
    exact Same.intro (fun k => (hkeys k).symm) (fun k a b ha hb => ih k b a hb ha)

theorem Same.trans {t u v : DomainTree} (h1 : Same t u) (h2 : Same u v) : Same t v := by
  induction h1 generalizing v with
  | @intro t u hkeys _ ih =>
    cases h2 with
    | intro hkeys2 hsub2 =>
      refine Same.intro (fun k => (hkeys k).trans (hkeys2 k)) ?_
      intro k a c ha hc
      have hu : (lookup k u).isSome = true := by rw [← hkeys k, ha]; rfl
      obtain ⟨b, hb⟩ := Option.isSome_iff_exists.1 hu
      exact ih k a b ha hb (hsub2 k b c hb hc)

theorem lookup_isSome_iff_mem_keys (k : Str) (t : DomainTree) :
    (lookup k t).isSome = true ↔ k ∈ keys t := by
  induction t with
  | empty => simp [lookup, keys]
  | entry k0 c r _ ihr =>
    by_cases h : k0 = k
    · simp [lookup, keys, h]
    · have h2 : ¬ k = k0 := fun e => h e.symm
      simp [lookup, keys, h, h2, ihr]

/-- Trees that are the same map have the same key set at the root. -/
theorem Same.mem_keys_iff {t u : DomainTree} (h : Same t u) (k : Str) :
    k ∈ keys t ↔ k ∈ keys u := by
  cases h with
  | intro hkeys _ =>
    rw [← lookup_isSome_iff_mem_keys, ← lookup_isSome_iff_mem_keys, hkeys k]

/-- Two trees are the same map exactly when the same key paths exist in
both. -/
theorem same_iff_hasPath (t u : DomainTree) :
    Same t u ↔ ∀ path, hasPath path t = hasPath path u := by
  constructor
  · intro h path
    induction path generalizing t u with
    | nil => rfl
    | cons k ks ih =>
      cases h with
      | intro hkeys hsub =>
        have hk := hkeys k
        unfold hasPath
        cases h1 : lookup k t <;> cases h2 : lookup k u <;> simp [h1, h2] at hk ⊢
        exact ih _ _ (hsub k _ _ h1 h2)
  · suffices H : ∀ n (t u : DomainTree), t.size ≤ n →
        (∀ path, hasPath path t = hasPath path u) → Same t u from H _ t u le_rfl
    intro n
    induction n with
    | zero =>
      intro t u ht h
      refine Same.intro ?_ ?_
      · intro k
        have := h [k]
        unfold hasPath at this
        cases h1 : lookup k t <;> cases h2 : lookup k u <;> simp [h1, h2, hasPath] at this ⊢
      · intro k a b ha _
        have := size_lt_of_lookup ha
        omega
    | succ n ih =>
      intro t u ht h
      refine Same.intro ?_ ?_
      · intro k
        have := h [k]
        unfold hasPath at this
        cases h1 : lookup k t <;> cases h2 : lookup k u <;> simp [h1, h2, hasPath] at this ⊢
      · intro k a b ha hb
        refine ih a b (by have := size_lt_of_lookup ha; omega) ?_
        intro path
        have := h (k :: path)
        simpa [hasPath, ha, hb] using this

theorem Same.insertPath_congr (ks : List Str) {t u : DomainTree} (h : Same t u) :
    Same (insertPath ks t) (insertPath ks u) := by
  induction ks generalizing t u with
  | nil => exact h
  | cons k0 ks ih =>
    cases h with
    | intro hkeys hsub =>
      have hch : Same (insertPath ks ((lookup k0 t).getD .empty))
          (insertPath ks ((lookup k0 u).getD .empty)) := by
        apply ih
        have hk := hkeys k0
        cases h1 : lookup k0 t <;> cases h2 : lookup k0 u <;> simp [h1, h2] at hk ⊢
        · exact Same.refl _
        · exact hsub k0 _ _ h1 h2
      refine Same.intro ?_ ?_
      · intro k
        simp only [insertPath, lookup_descend]
        by_cases hk : k0 = k
        · simp [hk]
        · simp [hk, hkeys k]
      · intro k a b ha hb
        simp only [insertPath, lookup_descend] at ha hb
        by_cases hk : k0 = k
        · simp only [hk, if_true, Option.some.injEq] at ha hb
          subst ha; subst hb
          rw [← hk]
          exact hch
        · simp only [hk, if_false] at ha hb
          exact hsub k a b ha hb

theorem insertPath_comm (ks1 ks2 : List Str) (t : DomainTree) :
    Same (insertPath ks1 (insertPath ks2 t)) (insertPath ks2 (insertPath ks1 t)) := by
  induction ks1 generalizing ks2 t with
  | nil => exact Same.refl _
  | cons k1 r1 ih =>
    cases ks2 with
    | nil => exact Same.refl _
    | cons k2 r2 =>
      by_cases h12 : k1 = k2
      · subst h12
        simp only [insertPath, descend_descend]
        refine Same.intro ?_ ?_
        · intro k
          simp only [lookup_descend]
          by_cases hk : k1 = k <;> simp [hk]
        · intro k a b ha hb
          simp only [lookup_descend] at ha hb
          by_cases hk : k1 = k
          · simp only [hk, if_true, Option.some.injEq] at ha hb
            subst ha; subst hb
            exact ih r2 _
          · simp only [hk, if_false] at ha hb
            rw [ha] at hb
            cases hb
            exact Same.refl _
      · apply Same.of_lookup_eq
        intro k
        have h21 : ¬ k2 = k1 := fun h => h12 h.symm
        simp only [insertPath, lookup_descend, h12, h21, if_false]
        by_cases hk1 : k1 = k
        · have hk2 : ¬ k2 = k := fun h => h12 (hk1.trans h.symm)
          simp [hk1, hk2]
        · simp [hk1]

theorem insertPath_foldl_congr (ds : List Str) {t u : DomainTree} (h : Same t u) :
    Same (ds.foldl updateDomainTree t) (ds.foldl updateDomainTree u) := by
  induction ds generalizing t u with
  | nil => exact h
  | cons d ds ih =>
    simp only [List.foldl_cons]
    apply ih
    rw [updateDomainTree_eq_insertPath, updateDomainTree_eq_insertPath]
    exact Same.insertPath_congr _ h

/-! ## The shape of the suffix keys -/

theorem suffixKeys_head? (parts : List Str) :
    (suffixKeys parts).head? = parts.getLast? := by
  induction parts with
  | nil => rfl
  | cons p ps ih =>
    rw [suffixKeys_cons]
    cases ps with
    | nil => rfl
    | cons q qs =>
      rw [suffixKeys_cons] at ih ⊢
      rw [List.getLast?_cons_cons, ← ih]
      cases h : suffixKeys qs <;> simp

theorem suffixKeys_getLast? (parts : List Str) (h : parts ≠ []) :
    (suffixKeys parts).getLast? = some (join ['.'] parts) := by
  cases parts with
  | nil => exact absurd rfl h
  | cons p ps => rw [suffixKeys_cons]; simp

theorem suffixKeys_length (parts : List Str) : (suffixKeys parts).length = parts.length := by
  simp [suffixKeys]

theorem pathOk_append_singleton (parent : Option Str) (ks : List Str) (k : Str)
    (h : PathOk parent ks) (hk : KeyOk (ks.foldl (fun _ x => some x) parent) k) :
    PathOk parent (ks ++ [k]) := by
  induction ks generalizing parent with
  | nil => exact ⟨hk, trivial⟩
  | cons a as ih => exact ⟨h.1, ih (some a) h.2 hk⟩

theorem foldl_last_suffixKeys (p : Str) (ps : List Str) (parent : Option Str) :
    (suffixKeys (p :: ps)).foldl (fun _ x => some x) parent = some (join ['.'] (p :: ps)) := by
  rw [suffixKeys_cons, List.foldl_append]; rfl

theorem pathOk_suffixKeys (parts : List Str) (hne : parts ≠ [])
    (hdot : ∀ p ∈ parts, '.' ∉ p) : PathOk none (suffixKeys parts) := by
  induction parts with
  | nil => exact absurd rfl hne
  | cons p ps ih =>
    rw [suffixKeys_cons]
    cases ps with
    | nil =>
      exact pathOk_append_singleton none _ _ trivial (hdot p (List.mem_cons_self _ _))
    | cons q qs =>
      refine pathOk_append_singleton none _ _
        (ih (by simp) (fun x hx => hdot x (List.mem_cons_of_mem _ hx))) ?_
      rw [foldl_last_suffixKeys]
      exact ⟨p, hdot p (List.mem_cons_self _ _), by simp [join]⟩

theorem keyShape_descend (parent : Option Str) (k : Str) (f : DomainTree → DomainTree)
    (hk : KeyOk parent k) (hf : ∀ c, KeyShape (some k) c → KeyShape (some k) (f c))
    (t : DomainTree) (ht : KeyShape parent t) : KeyShape parent (descend k f t) := by
  induction t with
  | empty => exact ⟨hk, hf _ trivial, trivial⟩
  | entry k0 c r _ ihr =>
    obtain ⟨h0, hc, hr⟩ := ht
    unfold descend
    split_ifs with h
    · subst h
      exact ⟨h0, hf c hc, hr⟩
    · exact ⟨h0, hc, ihr hr⟩

theorem keyShape_insertPath (parent : Option Str) (ks : List Str) (hks : PathOk parent ks)
    (t : DomainTree) (ht : KeyShape parent t) : KeyShape parent (insertPath ks t) := by
  induction ks generalizing parent t with
  | nil => exact ht
  | cons k ks ih =>
    exact keyShape_descend parent k _ hks.1 (fun c hc => ih (some k) hks.2 c hc) t ht

theorem keyShape_updateDomainTree (t : DomainTree) (d : Str) (ht : KeyShape none t) :
    KeyShape none (updateDomainTree t d) := by
  rw [updateDomainTree_eq_insertPath]
  exact keyShape_insertPath none _
    (pathOk_suffixKeys _ (split_ne_nil '.' d) (not_mem_of_mem_split '.' d)) t ht

/-! ## Tree construction: the claims -/

/-- C1: inserting a domain `d` with labels `p₀ … pₙ` into the empty tree gives
a single chain whose keys, from the root inwards, are the suffixes
`join(p[i..n], ".")` for `i = n, …, 0`; the root key is the bare last label,
the innermost key is `d` itself and maps to the empty tree.  In particular
`a.b.example.com` gives the four-level chain `com`, `example.com`,
`b.example.com`, `a.b.example.com`. -/
theorem updateDomainTree_empty_chain (d : Str) :
    updateDomainTree .empty d = chainTo .empty (suffixKeys (split '.' d))
    ∧ (suffixKeys (split '.' d)).length = (split '.' d).length
    ∧ (suffixKeys (split '.' d)).head? = (split '.' d).getLast?
    ∧ (suffixKeys (split '.' d)).getLast? = some d
    ∧ updateDomainTree .empty "a.b.example.com".toList
        = .entry "com".toList
            (.entry "example.com".toList
              (.entry "b.example.com".toList
                (.entry "a.b.example.com".toList .empty .empty) .empty) .empty) .empty := by
  refine ⟨?_, suffixKeys_length _, suffixKeys_head? _, ?_, by decide⟩
  · rw [updateDomainTree_eq_insertPath]
    have := insertPath_append_empty (suffixKeys (split '.' d)) []
    simpa [insertPath] using this
  · rw [suffixKeys_getLast? _ (split_ne_nil '.' d), join_split]

/-- C2: inserting the same domain a second time changes nothing: the tree after
two insertions of `d` is equal to (and so the same map as) the tree after
one. -/
theorem updateDomainTree_idempotent (t : DomainTree) (d : Str) :
    updateDomainTree (updateDomainTree t d) d = updateDomainTree t d
    ∧ Same (updateDomainTree (updateDomainTree t d) d) (updateDomainTree t d) := by
  have h : updateDomainTree (updateDomainTree t d) d = updateDomainTree t d := by
    simp only [updateDomainTree_eq_insertPath, insertPath_idem]
  exact ⟨h, Same.of_eq h⟩

/-- C3: for a parent domain `s` and two distinct dot-free labels `x`, `y`,
inserting `x.s` and then `y.s` into the empty tree gives the single chain of
`s` whose innermost node, keyed `s`, has exactly the two children `x.s` and
`y.s`, both leaves.  In particular `a.example.com` and `b.example.com` share the nodes
`com` and `example.com`. -/
theorem updateDomainTree_siblings (s x y : Str) (hxy : x ≠ y)
    (hx : '.' ∉ x) (hy : '.' ∉ y) :
    updateDomainTree (updateDomainTree .empty (x ++ '.' :: s)) (y ++ '.' :: s)
      = chainTo (.entry (x ++ '.' :: s) .empty (.entry (y ++ '.' :: s) .empty .empty))
          (suffixKeys (split '.' s))
    ∧ (suffixKeys (split '.' s)).getLast? = some s
    ∧ updateDomainTree (updateDomainTree .empty "a.example.com".toList) "b.example.com".toList
        = .entry "com".toList
            (.entry "example.com".toList
              (.entry "a.example.com".toList .empty
                (.entry "b.example.com".toList .empty .empty)) .empty) .empty := by
  refine ⟨?_, by rw [suffixKeys_getLast? _ (split_ne_nil '.' s), join_split], by decide⟩
  have hne : ¬ (x ++ '.' :: s = y ++ '.' :: s) := fun h => hxy (List.append_cancel_right h)
  rw [updateDomainTree_eq_insertPath, updateDomainTree_eq_insertPath,
    suffixKeys_append_sep x s hx, suffixKeys_append_sep y s hy,
    insertPath_append_empty, insertPath_append_chainTo]
  simp [insertPath, descend, hne]

/-- A concrete instance of C3: the labels `a` and `b` under `example.com`. -/
theorem updateDomainTree_siblings_witness :
    updateDomainTree (updateDomainTree .empty ("a".toList ++ '.' :: "example.com".toList))
        ("b".toList ++ '.' :: "example.com".toList)
      = chainTo (.entry "a.example.com".toList .empty
            (.entry "b.example.com".toList .empty .empty))
          ["com".toList, "example.com".toList] :=
  (updateDomainTree_siblings "example.com".toList "a".toList "b".toList
    (by decide) (by decide) (by decide)).1

/-- C4: the order of two insertions does not matter: inserting `d1` then `d2`
gives the same map as inserting `d2` then `d1` (the same keys at every level,
equivalently the same key paths); hence any two permutations of a list of
domains build the same map from any starting tree. -/
theorem updateDomainTree_comm (t : DomainTree) (d1 d2 : Str) :
    Same (updateDomainTree (updateDomainTree t d1) d2)
      (updateDomainTree (updateDomainTree t d2) d1)
    ∧ (∀ path, hasPath path (updateDomainTree (updateDomainTree t d1) d2)
        = hasPath path (updateDomainTree (updateDomainTree t d2) d1))
    ∧ ∀ l1 l2 : List Str, l1.Perm l2 →
        Same (l1.foldl updateDomainTree t) (l2.foldl updateDomainTree t) := by
  have hswap : ∀ (u : DomainTree) (a b : Str),
      Same (updateDomainTree (updateDomainTree u a) b)
        (updateDomainTree (updateDomainTree u b) a) := by
    intro u a b
    simp only [updateDomainTree_eq_insertPath]
    exact insertPath_comm _ _ u
  refine ⟨hswap t d1 d2, (same_iff_hasPath _ _).1 (hswap t d1 d2), ?_⟩
  intro l1 l2 hperm
  induction hperm generalizing t with
  | nil => exact Same.refl _
  | cons d _ ih => exact ih _
  | swap a b l =>
    simp only [List.foldl_cons]
    exact insertPath_foldl_congr l (hswap t b a)
  | trans _ _ ih1 ih2 => exact (ih1 t).trans (ih2 t)

/-- An instance of C4: `a.example.com` and `b.example.com` inserted in either
order build the same map. -/
theorem updateDomainTree_comm_witness :
    Same (["a.example.com".toList, "b.example.com".toList].foldl updateDomainTree .empty)
      (["b.example.com".toList, "a.example.com".toList].foldl updateDomainTree .empty) :=
  (updateDomainTree_comm .empty [] []).2.2 _ _ (List.Perm.swap _ _ _)

/-- C10: in every tree built from the empty tree by a sequence of insertions
of arbitrary strings, each root key is dot-free and each key below the root is
`l ++ "." ++ k` for the key `k` of its parent node and a dot-free label
`l`. -/
theorem keyShape_of_reachable (ds : List Str) :
    KeyShape none (ds.foldl updateDomainTree .empty) := by
  suffices H : ∀ t, KeyShape none t → KeyShape none (ds.foldl updateDomainTree t) from
    H .empty trivial
  induction ds with
  | nil => exact fun t ht => ht
  | cons d ds ih => exact fun t ht => ih _ (keyShape_updateDomainTree t d ht)

/-! ## The input loop -/

theorem normalize_eq_none_iff (line : Str) : normalize line = none ↔ skippable line = true := by
  unfold normalize skippable
  by_cases h1 : trimSpace line = []
  · simp [h1]
  · by_cases h2 : trimSpace line = ['.']
    · simp [h2]
    · simp [h1, h2]

theorem trimSpace_append_cr (s : Str) : trimSpace (s ++ ['\r']) = trimSpace s := by
  show List.rdropWhile isSpace (List.dropWhile isSpace (s ++ ['\r']))
    = List.rdropWhile isSpace (List.dropWhile isSpace s)
  induction s with
  | nil => rfl
  | cons c cs ih =>
    by_cases hc : isSpace c = true
    · simpa [List.dropWhile_cons, hc] using ih
    · have e1 : List.dropWhile isSpace (c :: cs ++ ['\r']) = (c :: cs) ++ ['\r'] := by
        simp [List.dropWhile_cons, hc]
      have e2 : List.dropWhile isSpace (c :: cs) = c :: cs := by
        simp [List.dropWhile_cons, hc]
      rw [e1, e2]
      exact List.rdropWhile_concat_pos isSpace (c :: cs) '\r' (by decide)

theorem trimSpace_dropCR (line : Str) : trimSpace (dropCR line) = trimSpace line := by
  unfold dropCR
  split_ifs with h
  · rcases List.eq_nil_or_concat line with rfl | ⟨t, c, rfl⟩
    · rfl
    · rw [List.concat_eq_append] at h ⊢
      have hc : c = '\r' := by simpa using h
      subst hc
      rw [List.dropLast_concat, trimSpace_append_cr]
  · rfl

/-- Dropping the carriage return does not change what the normaliser does. -/
theorem normalize_dropCR (line : Str) : normalize (dropCR line) = normalize line := by
  unfold normalize
  rw [trimSpace_dropCR]

theorem byteLen_replicate (n : Nat) (c : Char) :
    byteLen (List.replicate n c) = n * c.utf8Size := by
  induction n with
  | zero => simp [byteLen]
  | succ n ih =>
    unfold byteLen at ih ⊢
    rw [List.replicate_succ, List.map_cons, List.sum_cons, ih]
    ring

theorem trimSpace_replicate_blank (n : Nat) : trimSpace (List.replicate n ' ') = [] := by
  unfold trimSpace
  have : List.dropWhile isSpace (List.replicate n ' ') = [] := by
    rw [List.dropWhile_eq_nil_iff]
    intro x hx
    rw [List.eq_of_mem_replicate hx]
    decide
  rw [this]
  rfl

/-- A line of 64 KiB of blanks: skippable, and too long for the scanner. -/
theorem long_blank_line :
    skippable (List.replicate 65536 ' ') = true
      ∧ maxScanTokenSize ≤ byteLen (List.replicate 65536 ' ') := by
  constructor
  · unfold skippable
    rw [trimSpace_replicate_blank]
    decide
  · rw [byteLen_replicate]
    decide

theorem processLoop_long_line (isValidDomain : Str → Bool) (streamError : Bool)
    (line : Str) (lines : List Str) (t : DomainTree) (b : Bool)
    (h : maxScanTokenSize ≤ byteLen line) :
    processLoop isValidDomain streamError (line :: lines) t b = .readError := by
  unfold processLoop
  rw [if_pos h]

/-- With the error flag still unset, the loop aborts at the first rejected
line that the scanner delivers, ends with a read error when the scan is not
clean, and otherwise folds `updateDomainTree` over the normalised lines. -/
theorem processLoop_eq (isValidDomain : Str → Bool) (streamError : Bool)
    (lines : List Str) (t : DomainTree) :
    processLoop isValidDomain streamError lines t false
      = if ((lines.takeWhile fun l => decide (byteLen l < maxScanTokenSize)).filterMap
            normalize).all isValidDomain
        then
          if cleanScan lines streamError
          then .report ((lines.filterMap normalize).foldl updateDomainTree t)
          else .readError
        else .invalidInput := by
  induction lines generalizing t with
  | nil =>
    unfold processLoop cleanScan
    cases streamError <;> simp
  | cons l ls ih =>
    unfold processLoop
    by_cases hlong : maxScanTokenSize ≤ byteLen l
    · have hshort : ¬ byteLen l < maxScanTokenSize := by omega
      simp [hlong, hshort, List.takeWhile_cons, cleanScan]
    · have hshort : byteLen l < maxScanTokenSize := by omega
      rw [if_neg hlong, normalize_dropCR]
      have hclean : cleanScan (l :: ls) streamError = cleanScan ls streamError := by
        simp [cleanScan, hshort]
      rw [hclean]
      cases hn : normalize l with
      | none => simp [List.takeWhile_cons, hshort, List.filterMap_cons, hn, ih]
      | some d =>
        by_cases hv : isValidDomain d = true
        · simp [List.takeWhile_cons, hshort, List.filterMap_cons, hn, hv, ih]
        · simp [List.takeWhile_cons, hshort, List.filterMap_cons, hn, hv]

theorem takeWhile_eq_self_of_cleanScan (lines : List Str) (streamError : Bool)
    (h : cleanScan lines streamError = true) :
    (lines.takeWhile fun l => decide (byteLen l < maxScanTokenSize)) = lines := by
  rw [List.takeWhile_eq_self_iff]
  intro l hl
  unfold cleanScan at h
  simp only [Bool.and_eq_true, List.all_eq_true] at h
  exact h.1 l hl

theorem cleanScan_iff (lines : List Str) (streamError : Bool) :
    cleanScan lines streamError = true
      ↔ streamError = false ∧ ∀ l ∈ lines, byteLen l < maxScanTokenSize := by
  unfold cleanScan
  simp only [Bool.and_eq_true, List.all_eq_true, decide_eq_true_eq, Bool.not_eq_true']
  exact and_comm

/-- Lines that are skippable and short enough for the scanner leave the loop
as it is. -/
theorem processLoop_filter (isValidDomain : Str → Bool) (streamError : Bool)
    (lines : List Str) (t : DomainTree) (b : Bool) :
    processLoop isValidDomain streamError
        (lines.filter fun l => !(skippable l && decide (byteLen l < maxScanTokenSize))) t b
      = processLoop isValidDomain streamError lines t b := by
  induction lines generalizing t with
  | nil => rfl
  | cons l ls ih =>
    by_cases hs : (skippable l && decide (byteLen l < maxScanTokenSize)) = true
    · have hs2 := hs
      simp only [Bool.and_eq_true, decide_eq_true_eq] at hs2
      have hn : normalize (dropCR l) = none := by
        rw [normalize_dropCR]; exact (normalize_eq_none_iff l).2 hs2.1
      rw [List.filter_cons_of_neg (by simp [hs])]
      conv_rhs => unfold processLoop
      rw [if_neg (by omega)]
      simp only [hn]
      exact ih t
    · have hs3 : (!(skippable l && decide (byteLen l < maxScanTokenSize))) = true := by
        rw [Bool.not_eq_true']
        exact Bool.eq_false_iff.2 hs
      rw [List.filter_cons_of_pos (p := fun l =>
        !(skippable l && decide (byteLen l < maxScanTokenSize))) hs3]
      unfold processLoop
      by_cases hlong : maxScanTokenSize ≤ byteLen l
      · rw [if_pos hlong, if_pos hlong]
      · rw [if_neg hlong, if_neg hlong]
        cases hn : normalize (dropCR l) with
        | none => exact ih t
        | some d =>
          simp only
          split_ifs
          · exact ih _
          · rfl
          · exact ih _

theorem all_valid_iff (isValidDomain : Str → Bool) (lines : List Str) :
    (lines.filterMap normalize).all isValidDomain = true
      ↔ ∀ l ∈ lines, ∀ d, normalize l = some d → isValidDomain d = true := by
  simp only [List.all_eq_true, List.mem_filterMap]
  constructor
  · intro h l hl d hd
    exact h d ⟨l, hl, hd⟩
  · rintro h d ⟨l, hl, hd⟩
    exact h l hl d hd

/-- C5 (as the code behaves): `processInput` hands a tree to the serialiser
exactly when the scanner reads the whole input without error (every line
shorter than 64 KiB, no read error at the end of the stream) and no
non-skipped line normalises to a string the validator rejects; that tree is
then the result of inserting every normalised line in order.  A rejected line
that the scanner reaches ends the run as invalid whatever follows it and
however the stream ends, so the tree built from the earlier lines is discarded
and the later lines have no influence.  In particular `good.example.com`,
`not a domain!!`, `another.example.com` produces no report when the validator
rejects the second line. -/
theorem processInput_fail_fast (isValidDomain : Str → Bool) (lines : List Str)
    (streamError : Bool) :
    ((∃ t, processInput isValidDomain lines streamError = .report t)
        ↔ (streamError = false ∧ ∀ l ∈ lines, byteLen l < maxScanTokenSize)
          ∧ ∀ l ∈ lines, ∀ d, normalize l = some d → isValidDomain d = true)
    ∧ ((streamError = false ∧ ∀ l ∈ lines, byteLen l < maxScanTokenSize) →
        (∀ l ∈ lines, ∀ d, normalize l = some d → isValidDomain d = true) →
        processInput isValidDomain lines streamError
          = .report ((lines.filterMap normalize).foldl updateDomainTree .empty))
    ∧ (∀ (pre : List Str) (l : Str) (post : List Str) (d : Str),
        lines = pre ++ l :: post →
        (∀ p ∈ pre, byteLen p < maxScanTokenSize) → byteLen l < maxScanTokenSize →
        normalize l = some d → isValidDomain d = false →
          processInput isValidDomain lines streamError = .invalidInput
            ∧ ∀ (post2 : List Str) (streamError2 : Bool),
                processInput isValidDomain (pre ++ l :: post2) streamError2 = .invalidInput)
    ∧ (isValidDomain "not a domain!!".toList = false →
        processInput isValidDomain
          ["good.example.com".toList, "not a domain!!".toList, "another.example.com".toList]
          streamError = .invalidInput) := by
  have hbad : ∀ (pre : List Str) (l : Str) (post : List Str) (d : Str) (e : Bool),
      (∀ p ∈ pre, byteLen p < maxScanTokenSize) → byteLen l < maxScanTokenSize →
      normalize l = some d → isValidDomain d = false →
        processInput isValidDomain (pre ++ l :: post) e = .invalidInput := by
    intro pre l post d e hpre hl hn hv
    unfold processInput
    rw [processLoop_eq, if_neg]
    rw [all_valid_iff]
    intro h
    have hmem : l ∈ (pre ++ l :: post).takeWhile
        fun l => decide (byteLen l < maxScanTokenSize) := by
      rw [List.takeWhile_append_of_pos (by simpa using hpre), List.takeWhile_cons]
      simp [hl]
    have := h l hmem d hn
    rw [hv] at this
    exact Bool.noConfusion this
  refine ⟨?_, ?_, ?_, ?_⟩
  · unfold processInput
    rw [processLoop_eq, ← cleanScan_iff, ← all_valid_iff]
    by_cases hc : cleanScan lines streamError = true
    · rw [takeWhile_eq_self_of_cleanScan lines streamError hc]
      by_cases ha : (lines.filterMap normalize).all isValidDomain = true
      · simp [hc, ha]
      · simp [hc, ha]
    · split_ifs <;> simp [hc]
  · intro hc ha
    have hc2 := (cleanScan_iff lines streamError).2 hc
    unfold processInput
    rw [processLoop_eq, takeWhile_eq_self_of_cleanScan lines streamError hc2,
      if_pos ((all_valid_iff isValidDomain lines).2 ha), if_pos hc2]
  · intro pre l post d hl hpre hlen hn hv
    exact ⟨hl ▸ hbad pre l post d streamError hpre hlen hn hv,
      fun post2 e => hbad pre l post2 d e hpre hlen hn hv⟩
  · intro hv
    exact hbad ["good.example.com".toList] "not a domain!!".toList
      ["another.example.com".toList] "not a domain!!".toList streamError
      (by decide) (by decide) (by decide) hv

/-- An instance of C5 with a validator that rejects strings containing a
blank: the three-line input of the specification produces no report. -/
theorem processInput_fail_fast_witness :
    processInput (fun d => !d.contains ' ')
      ["good.example.com".toList, "not a domain!!".toList, "another.example.com".toList]
      false = .invalidInput :=
  (processInput_fail_fast (fun d => !d.contains ' ')
    ["good.example.com".toList, "not a domain!!".toList, "another.example.com".toList]
    false).2.2.2 (by decide)

/-- C5 as stated fails: an input whose only line is 64 KiB of blanks has no
line that the validator could reject, yet the scanner stops with `ErrTooLong`
and no tree reaches the serialiser. -/
theorem processInput_long_line_no_report :
    (∀ isValidDomain : Str → Bool,
      (∀ l ∈ [List.replicate 65536 ' '], ∀ d, normalize l = some d →
          isValidDomain d = true)
        ∧ processInput isValidDomain [List.replicate 65536 ' '] false = .readError)
    ∧ ¬ ∀ (isValidDomain : Str → Bool) (lines : List Str),
        (∃ t, processInput isValidDomain lines false = .report t)
          ↔ ∀ l ∈ lines, ∀ d, normalize l = some d → isValidDomain d = true := by
  have hskip : normalize (List.replicate 65536 ' ') = none :=
    (normalize_eq_none_iff _).2 long_blank_line.1
  have hall : ∀ isValidDomain : Str → Bool,
      ∀ l ∈ [List.replicate 65536 ' '], ∀ d, normalize l = some d →
        isValidDomain d = true := by
    intro v l hl d hd
    rw [List.mem_singleton.1 hl, hskip] at hd
    exact Option.noConfusion hd
  have hrun : ∀ isValidDomain : Str → Bool,
      processInput isValidDomain [List.replicate 65536 ' '] false = .readError :=
    fun v => processLoop_long_line v false _ [] .empty false long_blank_line.2
  refine ⟨fun v => ⟨hall v, hrun v⟩, ?_⟩
  intro h
  obtain ⟨t, ht⟩ := (h (fun _ => true) [List.replicate 65536 ' ']).2 (hall _)
  rw [hrun] at ht
  exact Outcome.noConfusion ht

/-- C6 (as the code behaves): lines whose trimmed text is empty or exactly "."
and that are shorter than 64 KiB are inert: two inputs that agree after
deleting such lines give the same outcome (the same tree, the same abort as
invalid, or the same read error), so such a line may be added or removed at
any position.  In particular the input `""`, `"."`, `"  "`, `example.com`
builds exactly `com ↦ (example.com ↦ empty)` when the validator accepts
`example.com` and the stream ends without a read error. -/
theorem processInput_skippable_inert (isValidDomain : Str → Bool) (lines1 lines2 : List Str)
    (streamError : Bool)
    (h : (lines1.filter fun l => !(skippable l && decide (byteLen l < maxScanTokenSize)))
      = (lines2.filter fun l => !(skippable l && decide (byteLen l < maxScanTokenSize)))) :
    processInput isValidDomain lines1 streamError
      = processInput isValidDomain lines2 streamError
    ∧ (∀ (pre post : List Str) (s : Str),
        skippable s = true → byteLen s < maxScanTokenSize →
        processInput isValidDomain (pre ++ s :: post) streamError
          = processInput isValidDomain (pre ++ post) streamError)
    ∧ (isValidDomain "example.com".toList = true →
        processInput isValidDomain
            ["".toList, ".".toList, "  ".toList, "example.com".toList] false
          = .report
              (.entry "com".toList (.entry "example.com".toList .empty .empty) .empty)) := by
  have key : ∀ a b : List Str,
      (a.filter fun l => !(skippable l && decide (byteLen l < maxScanTokenSize)))
        = (b.filter fun l => !(skippable l && decide (byteLen l < maxScanTokenSize))) →
        ∀ e, processInput isValidDomain a e = processInput isValidDomain b e := by
    intro a b hab e
    unfold processInput
    rw [← processLoop_filter isValidDomain e a, ← processLoop_filter isValidDomain e b, hab]
  refine ⟨key _ _ h _, ?_, ?_⟩
  · intro pre post s hs hlen
    apply key
    simp [List.filter_append, List.filter_cons, hs, hlen]
  · intro hv
    have h1 : processInput isValidDomain
          ["".toList, ".".toList, "  ".toList, "example.com".toList] false
        = processInput isValidDomain ["example.com".toList] false := key _ _ (by decide) _
    rw [h1]
    have hlen : ¬ maxScanTokenSize ≤ byteLen "example.com".toList := by decide
    have hn : normalize (dropCR "example.com".toList) = some "example.com".toList := by
      decide
    unfold processInput processLoop
    rw [if_neg hlen]
    simp only [hn, hv, if_true]
    unfold processLoop
    decide

/-- An instance of C6: the blank, dot and whitespace lines of the
specification example do not change what `example.com` alone builds. -/
theorem processInput_skippable_inert_witness :
    processInput (fun d => !d.contains ' ')
        ["".toList, ".".toList, "  ".toList, "example.com".toList] false
      = processInput (fun d => !d.contains ' ') ["example.com".toList] false :=
  (processInput_skippable_inert (fun d => !d.contains ' ')
    ["".toList, ".".toList, "  ".toList, "example.com".toList] ["example.com".toList]
    false (by decide)).1

/-- C6 as stated fails: a line of 64 KiB of blanks is skippable, but putting it
in front of `example.com` turns the report into a read error. -/
theorem processInput_long_blank_line_not_inert :
    (skippable (List.replicate 65536 ' ') = true
      ∧ processInput (fun _ => true)
          ([] ++ List.replicate 65536 ' ' :: ["example.com".toList]) false = .readError
      ∧ processInput (fun _ => true) ([] ++ ["example.com".toList]) false
          = .report
              (.entry "com".toList (.entry "example.com".toList .empty .empty) .empty))
    ∧ ¬ ∀ (isValidDomain : Str → Bool) (pre post : List Str) (s : Str),
        skippable s = true →
        processInput isValidDomain (pre ++ s :: post) false
          = processInput isValidDomain (pre ++ post) false := by
  have h1 : processInput (fun _ => true)
      ([] ++ List.replicate 65536 ' ' :: ["example.com".toList]) false = .readError :=
    processLoop_long_line _ false _ _ .empty false long_blank_line.2
  have h2 : processInput (fun _ => true) ([] ++ ["example.com".toList]) false
      = .report
          (.entry "com".toList (.entry "example.com".toList .empty .empty) .empty) := by
    decide
  refine ⟨⟨long_blank_line.1, h1, h2⟩, ?_⟩
  intro h
  have := h (fun _ => true) [] ["example.com".toList] (List.replicate 65536 ' ')
    long_blank_line.1
  rw [h1, h2] at this
  exact Outcome.noConfusion this

/-! ## The replacement step `strings.ReplaceAll(domain, "..", ".")` -/

/-- Induction along the way the scan for ".." consumes a string. -/
theorem dots_induction {P : Str → Prop} (hnil : P []) (hone : P ['.'])
    (htwo : ∀ X, P X → P ('.' :: '.' :: X))
    (hdotc : ∀ c X, c ≠ '.' → P (c :: X) → P ('.' :: c :: X))
    (hother : ∀ c X, c ≠ '.' → P X → P (c :: X)) : ∀ s, P s := by
  suffices H : ∀ n (s : Str), s.length ≤ n → P s from fun s => H _ s le_rfl
  intro n
  induction n with
  | zero =>
    intro s hs
    have : s = [] := List.length_eq_zero.1 (Nat.le_zero.1 hs)
    subst this
    exact hnil
  | succ n ih =>
    intro s hs
    match s, hs with
    | [], _ => exact hnil
    | [c], _ =>
      by_cases hc : c = '.'
      · subst hc; exact hone
      · exact hother c [] hc hnil
    | c :: d :: X, hs =>
      simp only [List.length_cons] at hs
      by_cases hc : c = '.'
      · subst hc
        by_cases hd : d = '.'
        · subst hd
          exact htwo X (ih X (by omega))
        · exact hdotc d X hd (ih (d :: X) (by simp only [List.length_cons]; omega))
      · exact hother c (d :: X) hc (ih (d :: X) (by simp only [List.length_cons]; omega))

theorem collapse_nil : replaceFrom ['.', '.'] ['.'] 0 [] = [] := rfl

theorem collapse_one : replaceFrom ['.', '.'] ['.'] 0 ['.'] = ['.'] := by
  simp [replaceFrom, List.isPrefixOf]

theorem collapse_two (X : Str) :
    replaceFrom ['.', '.'] ['.'] 0 ('.' :: '.' :: X) = '.' :: replaceFrom ['.', '.'] ['.'] 0 X := by
  simp [replaceFrom, List.isPrefixOf]

theorem collapse_dotc (c : Char) (X : Str) (hc : c ≠ '.') :
    replaceFrom ['.', '.'] ['.'] 0 ('.' :: c :: X)
      = '.' :: replaceFrom ['.', '.'] ['.'] 0 (c :: X) := by
  have : ('.' == c) = false := by simpa using fun h : '.' = c => hc h.symm
  simp [replaceFrom, List.isPrefixOf, this]

theorem collapse_other (c : Char) (X : Str) (hc : c ≠ '.') :
    replaceFrom ['.', '.'] ['.'] 0 (c :: X) = c :: replaceFrom ['.', '.'] ['.'] 0 X := by
  have : ('.' == c) = false := by simpa using fun h : '.' = c => hc h.symm
  cases X <;> simp [replaceFrom, List.isPrefixOf, this]

theorem getLast?_tail_ne {a c : Char} {X : Str} (h : (a :: X).getLast? ≠ some c) :
    X.getLast? ≠ some c := by
  cases X with
  | nil => simp
  | cons b Y => rwa [List.getLast?_cons_cons] at h

/-- A match of ".." never straddles a position that follows a non-dot. -/
theorem collapse_append (pre Y : Str) (hpre : pre.getLast? ≠ some '.') :
    replaceFrom ['.', '.'] ['.'] 0 (pre ++ Y)
      = replaceFrom ['.', '.'] ['.'] 0 pre ++ replaceFrom ['.', '.'] ['.'] 0 Y := by
  induction pre using dots_induction with
  | hnil => rfl
  | hone => exact absurd rfl hpre
  | htwo X ih =>
    have hX := getLast?_tail_ne (getLast?_tail_ne hpre)
    simp only [List.cons_append, collapse_two, ih hX]
  | hdotc c X hc ih =>
    have hX := getLast?_tail_ne hpre
    have := ih hX
    simp only [List.cons_append] at this ⊢
    rw [collapse_dotc _ _ hc, collapse_dotc _ _ hc, this]
    rfl
  | hother c X hc ih =>
    have hX := getLast?_tail_ne hpre
    simp only [List.cons_append, collapse_other _ _ hc, ih hX]

theorem collapse_replicate_append (n : Nat) (post : Str) (hpost : post.head? ≠ some '.') :
    replaceFrom ['.', '.'] ['.'] 0 (List.replicate n '.' ++ post)
      = List.replicate ((n + 1) / 2) '.' ++ replaceFrom ['.', '.'] ['.'] 0 post := by
  induction n using Nat.twoStepInduction
  · rfl
  · cases post with
    | nil => exact collapse_one
    | cons c X =>
      have hc : c ≠ '.' := fun h => hpost (by simp [h])
      exact collapse_dotc c X hc
  · rename_i n ih _
    have e : (n + 2 + 1) / 2 = (n + 1) / 2 + 1 := by omega
    rw [e]
    simp only [List.replicate_succ, List.cons_append, collapse_two]
    rw [ih]

theorem collapse_head? (post : Str) (hpost : post.head? ≠ some '.') :
    (replaceFrom ['.', '.'] ['.'] 0 post).head? ≠ some '.' := by
  cases post with
  | nil => simp [collapse_nil]
  | cons c X =>
    have hc : c ≠ '.' := fun h => hpost (by simp [h])
    rw [collapse_other c X hc]
    simpa using hc

theorem collapse_append_singleton (X : Str) (c : Char) (hc : c ≠ '.') :
    replaceFrom ['.', '.'] ['.'] 0 (X ++ [c]) = replaceFrom ['.', '.'] ['.'] 0 X ++ [c] := by
  induction X using dots_induction with
  | hnil => simp [collapse_other c [] hc, collapse_nil]
  | hone =>
    show replaceFrom ['.', '.'] ['.'] 0 ['.', c] = _
    rw [collapse_dotc c [] hc, collapse_other c [] hc, collapse_one, collapse_nil]
    rfl
  | htwo X ih => simp only [List.cons_append, collapse_two, ih]
  | hdotc d X hd ih =>
    simp only [List.cons_append] at ih ⊢
    rw [collapse_dotc _ _ hd, collapse_dotc _ _ hd, ih]
    rfl
  | hother d X hd ih => simp only [List.cons_append, collapse_other _ _ hd, ih]

theorem collapse_getLast? (pre : Str) (hpre : pre.getLast? ≠ some '.') :
    (replaceFrom ['.', '.'] ['.'] 0 pre).getLast? ≠ some '.' := by
  rcases List.eq_nil_or_concat pre with rfl | ⟨X, c, rfl⟩
  · simp [collapse_nil]
  · rw [List.concat_eq_append] at hpre ⊢
    have hc : c ≠ '.' := fun h => hpre (by simp [h])
    rw [collapse_append_singleton X c hc]
    simpa using hc

/-- Without an occurrence of ".." the replacement step changes nothing. -/
theorem collapse_eq_self (s : Str) (h : ¬ ['.', '.'] <:+: s) :
    replaceFrom ['.', '.'] ['.'] 0 s = s := by
  induction s using dots_induction with
  | hnil => rfl
  | hone => exact collapse_one
  | htwo X _ => exact absurd ⟨[], X, rfl⟩ h
  | hdotc c X hc ih =>
    rw [collapse_dotc c X hc, ih (fun hi => h (List.infix_cons hi))]
  | hother c X hc ih =>
    rw [collapse_other c X hc, ih (fun hi => h (List.infix_cons hi))]

/-- C8 (as the code behaves): the replacement step turns a maximal run of `n`
dots into a run of exactly `⌈n/2⌉` dots, which is again maximal.  That is two
dots exactly for `n = 3` and `n = 4`, at least three from `n = 5` on, and never
a single dot for `n ≥ 3`. -/
theorem replaceAll_dot_run (pre post : Str) (n : Nat)
    (hpre : pre.getLast? ≠ some '.') (hpost : post.head? ≠ some '.') :
    replaceAll (pre ++ List.replicate n '.' ++ post) "..".toList ".".toList
      = replaceAll pre "..".toList ".".toList ++ List.replicate ((n + 1) / 2) '.'
          ++ replaceAll post "..".toList ".".toList
    ∧ (replaceAll pre "..".toList ".".toList).getLast? ≠ some '.'
    ∧ (replaceAll post "..".toList ".".toList).head? ≠ some '.'
    ∧ ((n + 1) / 2 = 2 ↔ n = 3 ∨ n = 4)
    ∧ (3 ≤ n → 2 ≤ (n + 1) / 2)
    ∧ (5 ≤ n → 3 ≤ (n + 1) / 2) := by
  refine ⟨?_, collapse_getLast? pre hpre, collapse_head? post hpost, by omega, by omega,
    by omega⟩
  show replaceFrom ['.', '.'] ['.'] 0 (pre ++ List.replicate n '.' ++ post) = _
  rw [List.append_assoc, collapse_append pre _ hpre, collapse_replicate_append n post hpost,
    List.append_assoc]
  rfl

/-- An instance of C8: the five dots of `a.....b` become three. -/
theorem replaceAll_dot_run_witness :
    replaceAll ("a".toList ++ List.replicate 5 '.' ++ "b".toList) "..".toList ".".toList
      = replaceAll "a".toList "..".toList ".".toList ++ List.replicate 3 '.'
          ++ replaceAll "b".toList "..".toList ".".toList :=
  (replaceAll_dot_run "a".toList "b".toList 5 (by decide) (by decide)).1

/-- C8 as stated fails: a maximal run of five dots does not become a run of
two dots. -/
theorem replaceAll_dot_run_not_two :
    ¬ ∀ (n : Nat) (pre post : Str), 3 ≤ n →
        pre.getLast? ≠ some '.' → post.head? ≠ some '.' →
        replaceAll (pre ++ List.replicate n '.' ++ post) "..".toList ".".toList
          = replaceAll pre "..".toList ".".toList ++ ['.', '.']
              ++ replaceAll post "..".toList ".".toList := by
  intro h
  have := h 5 "a".toList "b".toList (by decide) (by decide) (by decide)
  revert this
  decide

/-! ## The normaliser -/

theorem split_of_not_mem (sep : Char) (s : Str) (h : sep ∉ s) : split sep s = [s] := by
  induction s with
  | nil => rfl
  | cons c cs ih =>
    have hc : c ≠ sep := fun e => h (e ▸ List.mem_cons_self _ _)
    have hcs : sep ∉ cs := fun e => h (List.mem_cons_of_mem _ e)
    rw [split, if_neg hc, ih hcs]

theorem headD_split_not_mem (sep : Char) (s : Str) : sep ∉ (split sep s).headD [] := by
  cases h : split sep s with
  | nil => exact absurd h (split_ne_nil sep s)
  | cons p ps =>
    exact not_mem_of_mem_split sep s p (h ▸ List.mem_cons_self _ _)

theorem trimPrefix_eq_self (s pre : Str) (c : Char) (hc : c ∈ pre) (hs : c ∉ s) :
    trimPrefix s pre = s := by
  unfold trimPrefix
  rw [if_neg]
  intro h
  exact hs ((List.isPrefixOf_iff_prefix.1 h).subset hc)

theorem trimSuffix_eq_self (s suf : Str) (h : ¬ suf <:+ s) : trimSuffix s suf = s := by
  unfold trimSuffix
  rw [if_neg]
  intro hs
  exact h (List.isSuffixOf_iff_suffix.1 hs)

/-- The normaliser never hands on a string containing ':'. -/
theorem normalize_no_colon (line y : Str) (h : normalize line = some y) : ':' ∉ y := by
  unfold normalize at h
  simp only at h
  split_ifs at h
  simp only [Option.some.injEq] at h
  rw [← h]
  exact headD_split_not_mem ':' _

theorem trimSpace_sublist (s : Str) : (trimSpace s).Sublist s := by
  unfold trimSpace
  have h1 : (s.dropWhile isSpace).Sublist s := (List.dropWhile_suffix _).sublist
  have h2 : ((s.dropWhile isSpace).reverse.dropWhile isSpace).Sublist
      (s.dropWhile isSpace).reverse := (List.dropWhile_suffix _).sublist
  have h3 := h2.reverse
  rw [List.reverse_reverse] at h3
  exact h3.trans h1

theorem trimPrefix_length_le (s pre : Str) : (trimPrefix s pre).length ≤ s.length := by
  unfold trimPrefix
  split_ifs
  · simp
  · exact le_rfl

theorem trimSuffix_length_le (s suf : Str) : (trimSuffix s suf).length ≤ s.length := by
  unfold trimSuffix
  split_ifs
  · simp
  · exact le_rfl

theorem trimSuffix_dot_length_lt (s : Str) (h : ['.'] <:+ s) :
    (trimSuffix s ['.']).length < s.length := by
  unfold trimSuffix
  rw [if_pos (List.isSuffixOf_iff_suffix.2 h)]
  obtain ⟨t, rfl⟩ := h
  simp

theorem headD_split_length_le (sep : Char) (s : Str) :
    ((split sep s).headD []).length ≤ s.length := by
  induction s with
  | nil => simp [split]
  | cons c cs ih =>
    unfold split
    split_ifs
    · simp
    · cases h : split sep cs with
      | nil => simp
      | cons p ps =>
        rw [h] at ih
        simpa using ih

theorem collapse_length_le (s : Str) :
    (replaceFrom ['.', '.'] ['.'] 0 s).length ≤ s.length := by
  induction s using dots_induction with
  | hnil => simp [collapse_nil]
  | hone => simp [collapse_one]
  | htwo X ih => rw [collapse_two]; simp only [List.length_cons]; omega
  | hdotc c X hc ih =>
    rw [collapse_dotc c X hc]; simp only [List.length_cons] at ih ⊢; omega
  | hother c X hc ih =>
    rw [collapse_other c X hc]; simp only [List.length_cons]; omega

theorem infix_of_infix_cons {c : Char} {X : Str} (hc : c ≠ '.')
    (h : ['.', '.'] <:+: c :: X) : ['.', '.'] <:+: X := by
  rcases List.infix_cons_iff.1 h with hp | hi
  · obtain ⟨t, ht⟩ := hp
    simp only [List.cons_append, List.cons.injEq] at ht
    exact absurd ht.1.symm hc
  · exact hi

theorem infix_of_infix_dot_cons {c : Char} {X : Str} (hc : c ≠ '.')
    (h : ['.', '.'] <:+: '.' :: c :: X) : ['.', '.'] <:+: c :: X := by
  rcases List.infix_cons_iff.1 h with hp | hi
  · obtain ⟨t, ht⟩ := hp
    simp only [List.cons_append, List.cons.injEq] at ht
    exact absurd ht.2.1.symm hc
  · exact hi

/-- An occurrence of ".." makes the replacement step shorten the string. -/
theorem collapse_length_lt (s : Str) (h : ['.', '.'] <:+: s) :
    (replaceFrom ['.', '.'] ['.'] 0 s).length < s.length := by
  induction s using dots_induction with
  | hnil =>
    obtain ⟨a, b, hab⟩ := h
    simp at hab
  | hone =>
    have := h.length_le
    simp at this
  | htwo X _ =>
    rw [collapse_two]
    have := collapse_length_le X
    simp only [List.length_cons]
    omega
  | hdotc c X hc ih =>
    rw [collapse_dotc c X hc]
    have := ih (infix_of_infix_dot_cons hc h)
    simp only [List.length_cons] at this ⊢
    omega
  | hother c X hc ih =>
    rw [collapse_other c X hc]
    have := ih (infix_of_infix_cons hc h)
    simp only [List.length_cons]
    omega

/-- The fixed points of the normaliser among strings without ':'. -/
theorem normalize_eq_self_iff (y : Str) (hcolon : ':' ∉ y) :
    normalize y = some y
      ↔ trimSpace y = y ∧ y ≠ [] ∧ ¬ ['.', '.'] <:+: y ∧ ¬ ['.'] <:+ y := by
  have tp1 : trimPrefix y "http://".toList = y := trimPrefix_eq_self y _ ':' (by decide) hcolon
  have tp2 : trimPrefix y "https://".toList = y := trimPrefix_eq_self y _ ':' (by decide) hcolon
  have hsp : (split ':' y).headD [] = y := by rw [split_of_not_mem ':' y hcolon]; rfl
  constructor
  · intro h
    unfold normalize at h
    simp only at h
    split_ifs at h with hz
    simp only [Option.some.injEq] at h
    have l1 := headD_split_length_le ':' (trimSuffix (replaceAll (trimPrefix
      (trimPrefix (trimSpace y) "http://".toList) "https://".toList) "..".toList ".".toList)
      ".".toList)
    have l2 := trimSuffix_length_le (replaceAll (trimPrefix
      (trimPrefix (trimSpace y) "http://".toList) "https://".toList) "..".toList ".".toList)
      ".".toList
    have l3 := collapse_length_le (trimPrefix
      (trimPrefix (trimSpace y) "http://".toList) "https://".toList)
    have l4 := trimPrefix_length_le (trimPrefix (trimSpace y) "http://".toList)
      "https://".toList
    have l5 := trimPrefix_length_le (trimSpace y) "http://".toList
    have l6 := (trimSpace_sublist y).length_le
    rw [h] at l1
    have l3b : (replaceAll (trimPrefix (trimPrefix (trimSpace y) "http://".toList)
        "https://".toList) "..".toList ".".toList).length
        ≤ (trimPrefix (trimPrefix (trimSpace y) "http://".toList) "https://".toList).length :=
      l3
    have hts : trimSpace y = y := (trimSpace_sublist y).eq_of_length (by omega)
    rw [hts, tp1, tp2] at h
    have hne : y ≠ [] := by rw [hts] at hz; exact hz.1
    have m1 := headD_split_length_le ':' (trimSuffix (replaceAll y "..".toList ".".toList)
      ".".toList)
    rw [h] at m1
    have m2 := trimSuffix_length_le (replaceAll y "..".toList ".".toList) ".".toList
    have hdd : ¬ ['.', '.'] <:+: y := by
      intro hi
      have hlt : (replaceAll y "..".toList ".".toList).length < y.length :=
        collapse_length_lt y hi
      omega
    have hR : replaceAll y "..".toList ".".toList = y := collapse_eq_self y hdd
    rw [hR] at h
    have n1 := headD_split_length_le ':' (trimSuffix y ".".toList)
    rw [h] at n1
    have hend : ¬ ['.'] <:+ y := by
      intro hs
      have hlt : (trimSuffix y ".".toList).length < y.length := trimSuffix_dot_length_lt y hs
      omega
    exact ⟨hts, hne, hdd, hend⟩
  · rintro ⟨htrim, hne, hdd, hend⟩
    have hdot : y ≠ ['.'] := fun e => hend (e ▸ List.suffix_refl _)
    have h3 : replaceAll y "..".toList ".".toList = y := collapse_eq_self y hdd
    have h4 : trimSuffix y ".".toList = y := trimSuffix_eq_self y _ hend
    unfold normalize
    simp only [htrim, tp1, tp2, h3, h4, hsp]
    rw [if_pos ⟨hne, hdot⟩]

/-- C7 (as the code behaves): for the output `y` of the normaliser on a
non-skipped line, normalising `y` does not skip it and returns `y` unchanged
exactly when `y` is in normal form: no surrounding whitespace, non-empty, no
occurrence of "..", no trailing ".". -/
theorem normalize_idempotent_on_normal_form (line y : Str) (h : normalize line = some y) :
    normalize y = some y
      ↔ trimSpace y = y ∧ y ≠ [] ∧ ¬ ['.', '.'] <:+: y ∧ ¬ ['.'] <:+ y :=
  normalize_eq_self_iff y (normalize_no_colon line y h)

/-- An instance of C7: the line `  http://example.com:80 ` normalises to
`example.com`, which is in normal form and normalises to itself. -/
theorem normalize_idempotent_on_normal_form_witness :
    normalize "  http://example.com:80 ".toList = some "example.com".toList
      ∧ normalize "example.com".toList = some "example.com".toList :=
  ⟨by decide,
    (normalize_idempotent_on_normal_form "  http://example.com:80 ".toList
      "example.com".toList (by decide)).2 (by decide)⟩

/-- C7 as stated fails: the line `a...b` is not skipped and normalises to
`a..b`, and normalising `a..b` gives `a.b`. -/
theorem normalize_not_idempotent :
    ¬ ∀ line y : Str, normalize line = some y → normalize y = some y := by
  intro h
  have := h "a...b".toList "a..b".toList (by decide)
  revert this
  decide

/-- C9 (the code at the failing inputs): a line with a dot in front of its
port suffix, or with three trailing dots, is handed to the validator with a
trailing dot. -/
theorem normalize_keeps_trailing_dot :
    normalize "example.com.:8080".toList = some "example.com.".toList
    ∧ normalize "example.com...".toList = some "example.com.".toList
    ∧ ¬ ∀ line y : Str, normalize line = some y → y.getLast? ≠ some '.' := by
  refine ⟨by decide, by decide, ?_⟩
  intro h
  exact h "example.com.:8080".toList "example.com.".toList (by decide) (by decide)

end AssetViz
